import Mathlib

set_option linter.unusedVariables false

/-
Shallow embedding of the CIP lookup/search/filter engine of the
cip-stem-intelligence repository.

Sources embedded:
- docs/js/loadIndex.js : normalizeText, normalizeCipInput, record loading
- docs/js/search.js    : buildQueryEngine (matchCipPrefix, search)
- docs/js/app.js       : canonicalCip, tokenize, searchIndex

JavaScript strings are modelled through their character lists
(`String.data`); all functions are executable.
-/

/- ===== JS string primitives ===== -/

def isWs (c : Char) : Bool := c.isWhitespace

def trimList (l : List Char) : List Char :=
  ((l.dropWhile isWs).reverse.dropWhile isWs).reverse

/-- JS `String.prototype.trim`. -/
def jsTrim (s : String) : String := ⟨trimList s.data⟩

/-- JS `String.prototype.toLowerCase` (ASCII, which covers this data set). -/
def jsToLower (s : String) : String := ⟨s.data.map Char.toLower⟩

/-- One pass of `replace(/\s+/g, " ")`: each maximal whitespace run becomes one space.
The flag records whether the previous character was whitespace. -/
def collapseWsAux : Bool → List Char → List Char
  | _, [] => []
  | prevWs, c :: rest =>
    if isWs c then
      if prevWs then collapseWsAux true rest
      else ' ' :: collapseWsAux true rest
    else c :: collapseWsAux false rest

/-- `normalizeText` from loadIndex.js: trim, lowercase, collapse whitespace. -/
def normalizeText (s : String) : String :=
  ⟨collapseWsAux false (jsToLower (jsTrim s)).data⟩

/-- Split a character list at every character satisfying `p`
(JS `String.prototype.split` against a single-char class). -/
def splitOnP (p : Char → Bool) : List Char → List (List Char)
  | [] => [[]]
  | c :: rest =>
    if p c then [] :: splitOnP p rest
    else
      match splitOnP p rest with
      | chunk :: chunks => (c :: chunk) :: chunks
      | [] => [[c]]

def isDotChar (c : Char) : Bool := c = '.'

def splitDot (l : List Char) : List (List Char) := splitOnP isDotChar l

/-- JS `needle.length <= hay.length && hay.includes(needle)` core: substring test. -/
def listIncludes : List Char → List Char → Bool
  | hay, needle =>
    if needle.isPrefixOf hay then true
    else
      match hay with
      | [] => false
      | _ :: t => listIncludes t needle

/-- JS `String.prototype.includes`. -/
def strIncludes (hay needle : String) : Bool := listIncludes hay.data needle.data

/-- JS `String.prototype.startsWith`. -/
def strStartsWith (s p : String) : Bool := p.data.isPrefixOf s.data

/-- JS `String.prototype.endsWith`. -/
def strEndsWith (s p : String) : Bool := p.data.isSuffixOf s.data

/-- Regex `^\d{n}$` on a character list. -/
def digitRun (l : List Char) (n : Nat) : Bool :=
  l.length == n && l.all Char.isDigit

/-- Regex `^\d{1,4}$` on a character list. -/
def digitRun14 (l : List Char) : Bool :=
  decide (1 ≤ l.length) && decide (l.length ≤ 4) && l.all Char.isDigit

/-- JS `String.prototype.padStart(4, "0")` on the character list. -/
def padStart4 (l : List Char) : List Char :=
  List.replicate (4 - l.length) '0' ++ l

def isBracketChar (c : Char) : Bool :=
  c = '[' || c = ']' || c = '(' || c = ')'

/- ===== loadIndex.js : normalizeCipInput ===== -/

/-- `normalizeCipInput` from loadIndex.js: canonicalize "14" / "14.09" / "14.0900"
style input to "XX.XXXX", or `""` when not parseable.  Brackets and parentheses
are removed anywhere in the string; the fallback for `^(\d{2})\.(\d{1,4})$`
uses `padStart(4, "0")` on the right segment. -/
def normalizeCipInput (cip : String) : String :=
  let raw := trimList cip.data
  if raw.isEmpty then ""
  else
    let cleaned := raw.filter (fun c => !isBracketChar c)
    if digitRun cleaned 2 then ⟨cleaned ++ ".0000".data⟩
    else
      match splitDot cleaned with
      | [a, b] =>
        if digitRun a 2 && digitRun b 2 then ⟨a ++ '.' :: (b ++ "00".data)⟩
        else if digitRun a 2 && digitRun b 4 then ⟨cleaned⟩
        else if digitRun a 2 && digitRun14 b then ⟨a ++ '.' :: padStart4 b⟩
        else ""
      | _ => ""

/- ===== app.js : canonicalCip, tokenize, searchIndex ===== -/

def isOpenBracket (c : Char) : Bool := c = '[' || c = '('

def isCloseBracket (c : Char) : Bool := c = ']' || c = ')'

/-- Regex `^[\[\(]+|[\]\)]+$` with the global flag: strip a leading run of
opening brackets and a trailing run of closing brackets. -/
def stripOuterBrackets (l : List Char) : List Char :=
  ((l.dropWhile isOpenBracket).reverse.dropWhile isCloseBracket).reverse

/-- `canonicalCip` from app.js.  `split(".", 2)` keeps only the first two
chunks; each side is trimmed again; the 1-4 digit fallback uses
`padStart(4, "0")`. -/
def canonicalCip (raw : String) : String :=
  let s := stripOuterBrackets (trimList raw.data)
  if s.isEmpty then ""
  else if !(s.any isDotChar) then
    (if digitRun s 2 then ⟨s ++ ".0000".data⟩ else ⟨s⟩)
  else
    match splitDot s with
    | left :: rightRaw :: _ =>
      let left2 := trimList left
      let right := trimList rightRaw
      if digitRun left2 2 && digitRun right 2 then ⟨left2 ++ '.' :: (right ++ "00".data)⟩
      else if digitRun left2 2 && digitRun right 4 then ⟨left2 ++ '.' :: right⟩
      else if digitRun left2 2 && digitRun14 right then ⟨left2 ++ '.' :: padStart4 right⟩
      else ⟨s⟩
    | _ => ⟨s⟩

/-- `tokenize` from app.js: lowercase, split on whitespace, drop empties. -/
def tokenize (q : String) : List String :=
  (((splitOnP isWs (jsToLower q).data).map trimList).filter
      (fun t => !t.isEmpty)).map (fun t => (⟨t⟩ : String))

/- ===== Record model (loadIndex.js load mapping) ===== -/

/-- A loaded record: raw fields from the index JSON plus the derived fields
added by loadIndex.js (`cipNorm`, `cipFamily`, `titleNorm`). -/
structure Record where
  cip : String
  title : String
  definition : String
  stemEligible : Bool
  cipNorm : String
  cipFamily : String
  titleNorm : String
deriving DecidableEq

/-- A record as it appears in the index JSON (missing optional fields modelled
as `""`/`false`). -/
structure RawRecord where
  cip : String
  cipFamily : String
  title : String
  definition : String
  stemEligible : Bool
deriving DecidableEq

/-- The per-record mapping of `loadIndex` in loadIndex.js:
`cipNorm := cip`, `cipFamily := r.cipFamily || r.cip.split(".")[0]`,
`titleNorm := normalizeText title`. -/
def loadRecord (r : RawRecord) : Record :=
  ⟨r.cip, r.title, r.definition, r.stemEligible, r.cip,
    (if r.cipFamily = "" then (⟨(splitDot r.cip.data).headD []⟩ : String) else r.cipFamily),
    normalizeText r.title⟩

/- ===== search.js : buildQueryEngine ===== -/

/-- The `byCip` map of buildQueryEngine: `new Map(records.map(r => [r.cipNorm, r]))`,
so a later record with the same key overwrites an earlier one. -/
def lastWith (k : String) : List Record → Option Record
  | [] => none
  | r :: rs =>
    match lastWith k rs with
    | some x => some x
    | none => if r.cipNorm == k then some r else none

/-- `matchCipPrefix` from search.js: two-digit input matches `cipFamily`
equality, `NN.NN` input matches a `cipNorm` string prefix. -/
def matchCipPrefix (r : Record) (userInputRaw : String) : Bool :=
  let raw := trimList userInputRaw.data
  if raw.isEmpty then false
  else if digitRun raw 2 then r.cipFamily == (⟨raw⟩ : String)
  else
    match splitDot raw with
    | [a, b] =>
      if digitRun a 2 && digitRun b 2 then strStartsWith r.cipNorm ⟨raw⟩
      else false
    | _ => false

/-- The per-record hit test of the scan loop in `search` (search.js):
CIP family/prefix match, else title keyword containment, else the
first-five-character prefix of the canonicalized query. -/
def hitPred (query qText qCipCanon : String) (r : Record) : Bool :=
  matchCipPrefix r query
    || (!(qText == "") && strIncludes r.titleNorm qText)
    || (!(qCipCanon == "") && strStartsWith r.cipNorm ⟨qCipCanon.data.take 5⟩)

/-- The scan loop of `search` (search.js): records failing the STEM filter are
skipped entirely (`continue`), hits are appended, and the loop breaks as soon
as `results.length >= limit` — a check made after the append. -/
def scanAux (stemOnly : Bool) (hit : Record → Bool) (limit : Nat) :
    List Record → List Record → List Record
  | acc, [] => acc
  | acc, r :: rs =>
    if stemOnly && !r.stemEligible then scanAux stemOnly hit limit acc rs
    else
      let acc' := if hit r then acc ++ [r] else acc
      if limit ≤ acc'.length then acc' else scanAux stemOnly hit limit acc' rs

/-- JS `<` on strings: lexicographic comparison by code unit. -/
def ltChars : List Char → List Char → Bool
  | [], [] => false
  | [], _ :: _ => true
  | _ :: _, [] => false
  | a :: as, b :: bs => if a < b then true else if b < a then false else ltChars as bs

/-- The comparator of `results.sort` in search.js, as a total preorder:
`recLeb a b` holds when `a.cipNorm <= b.cipNorm`. -/
def recLeb (a b : Record) : Bool := !ltChars b.cipNorm.data a.cipNorm.data

def insertRec (r : Record) : List Record → List Record
  | [] => [r]
  | x :: xs => if recLeb r x then r :: x :: xs else x :: insertRec r xs

/-- The stable ascending-by-`cipNorm` sort of search.js (`results.sort`). -/
def sortByCip (l : List Record) : List Record := l.foldr insertRec []

/-- `search` from search.js (buildQueryEngine): exact CIP match wins, otherwise
scan with the STEM filter, hit test and limit, then sort by CIP ascending. -/
def search (records : List Record) (q : String) (stemOnly : Bool) (limit : Nat) :
    List Record :=
  let query := jsTrim q
  let qText := normalizeText query
  let qCipCanon := normalizeCipInput query
  if qCipCanon == "" then
    sortByCip (scanAux stemOnly (hitPred query qText qCipCanon) limit [] records)
  else
    match lastWith qCipCanon records with
    | some rec => if stemOnly && !rec.stemEligible then [] else [rec]
    | none => sortByCip (scanAux stemOnly (hitPred query qText qCipCanon) limit [] records)

/- ===== app.js : searchIndex ===== -/

/-- Regex `^\d{2}\.\d{4}$`. -/
def canonShape (t : String) : Bool :=
  match t.data with
  | [a, b, c, d, e, f, g] =>
    a.isDigit && b.isDigit && c == '.' && d.isDigit && e.isDigit && f.isDigit && g.isDigit
  | _ => false

/-- `searchIndex` from app.js: the page-level search over the raw index
records, with a hardcoded slice of 50 for the empty query and no sorting. -/
def searchIndex (records : List Record) (q : String) (stemOnly : Bool) :
    List Record :=
  let qTrim := jsTrim q
  let toks := tokenize qTrim
  let asCip := canonicalCip qTrim
  let isCipQuery := !(asCip == "") && canonShape asCip
  let hits := if stemOnly then records.filter (fun r => r.stemEligible) else records
  if qTrim == "" then hits.take 50
  else if isCipQuery then
    (if strEndsWith asCip ".0000" then
      hits.filter (fun r => strStartsWith r.cip ⟨asCip.data.take 2 ++ ['.']⟩)
    else if strEndsWith asCip "00" then
      hits.filter (fun r => strStartsWith r.cip ⟨asCip.data.take 5⟩)
    else
      hits.filter (fun r => r.cip == asCip))
  else
    hits.filter (fun r =>
      toks.all (fun t => strIncludes (jsToLower ⟨r.title.data ++ ' ' :: r.definition.data⟩) t))

/-- The spec's keyword predicate (refinement reference for the keyword-AND
claim): every whitespace-delimited lowercase token of the query occurs in the
concatenated title+definition text, case-insensitively. -/
def specKeywordAndMatch (r : Record) (q : String) : Bool :=
  (tokenize q).all (fun t =>
    strIncludes (jsToLower ⟨r.title.data ++ ' ' :: r.definition.data⟩) t)

/- scratch sanity examples (concrete evaluation) -/

example : normalizeCipInput "14" = "14.0000" := by decide
example : normalizeCipInput "14.09" = "14.0900" := by decide
example : normalizeCipInput "14.0903" = "14.0903" := by decide
example : normalizeCipInput "14.9" = "14.0009" := by decide
example : normalizeCipInput "abc" = "" := by decide
example : normalizeCipInput " [14.09] " = "14.0900" := by decide
example : canonicalCip "14.9" = "14.0009" := by decide
example : canonicalCip "14" = "14.0000" := by decide
example : tokenize "  Computer   Engineering " = ["computer", "engineering"] := by decide
example : normalizeText "  A  b " = "a b" := by decide

/- ===== Character-class facts ===== -/

lemma digit_not_ws {c : Char} (h : c.isDigit = true) : isWs c = false := by
  cases hw : isWs c
  · rfl
  · exfalso
    simp [isWs, Char.isWhitespace] at hw
    rcases hw with ((rfl | rfl) | rfl) | rfl <;> simp [Char.isDigit] at h

lemma digit_ne_dot {c : Char} (h : c.isDigit = true) : c ≠ '.' := by
  intro hc; subst hc; simp [Char.isDigit] at h

lemma digit_not_dot {c : Char} (h : c.isDigit = true) : isDotChar c = false := by
  simp [isDotChar]; exact digit_ne_dot h

lemma digit_not_bracket {c : Char} (h : c.isDigit = true) : isBracketChar c = false := by
  cases hb : isBracketChar c
  · rfl
  · exfalso
    simp [isBracketChar] at hb
    rcases hb with ((rfl | rfl) | rfl) | rfl <;> simp [Char.isDigit] at h

lemma dot_not_ws : isWs '.' = false := by decide

lemma dot_not_bracket : isBracketChar '.' = false := by decide

lemma digit_not_openBracket {c : Char} (h : c.isDigit = true) : isOpenBracket c = false := by
  cases hb : isOpenBracket c
  · rfl
  · exfalso
    simp [isOpenBracket] at hb
    rcases hb with rfl | rfl <;> simp [Char.isDigit] at h

lemma digit_not_closeBracket {c : Char} (h : c.isDigit = true) : isCloseBracket c = false := by
  cases hb : isCloseBracket c
  · rfl
  · exfalso
    simp [isCloseBracket] at hb
    rcases hb with rfl | rfl <;> simp [Char.isDigit] at h

/- ===== dropWhile / trim lemmas ===== -/

lemma dropWhile_eq_self_of_noP (p : Char → Bool) :
    ∀ l : List Char, (∀ c ∈ l, p c = false) → l.dropWhile p = l := by
  intro l h
  cases l with
  | nil => rfl
  | cons c t => simp [List.dropWhile, h c (List.mem_cons_self c t)]

lemma trimList_of_noWs {l : List Char} (h : ∀ c ∈ l, isWs c = false) : trimList l = l := by
  unfold trimList
  rw [dropWhile_eq_self_of_noP isWs l h,
    dropWhile_eq_self_of_noP isWs l.reverse (fun c hc => h c (List.mem_reverse.mp hc)),
    List.reverse_reverse]

/- ===== splitOnP lemmas ===== -/

lemma splitOnP_ne_nil (p : Char → Bool) : ∀ l : List Char, splitOnP p l ≠ [] := by
  intro l
  induction l with
  | nil => simp [splitOnP]
  | cons c t ih =>
    unfold splitOnP
    cases hp : p c
    · simp only [Bool.false_eq_true, if_false]
      rcases hx : splitOnP p t with _ | ⟨ch, chs⟩
      · exact absurd hx ih
      · simp
    · simp

lemma splitOnP_of_free (p : Char → Bool) :
    ∀ l : List Char, (∀ c ∈ l, p c = false) → splitOnP p l = [l] := by
  intro l
  induction l with
  | nil => intro _; rfl
  | cons c t ih =>
    intro h
    unfold splitOnP
    rw [h c (List.mem_cons_self c t)]
    simp only [Bool.false_eq_true, if_false]
    rw [ih (fun x hx => h x (List.mem_cons_of_mem c hx))]

lemma splitOnP_eq_single (p : Char → Bool) :
    ∀ l x : List Char, splitOnP p l = [x] → l = x ∧ ∀ c ∈ x, p c = false := by
  intro l
  induction l with
  | nil =>
    intro x h
    simp [splitOnP] at h
    subst h
    exact ⟨rfl, by simp⟩
  | cons c t ih =>
    intro x h
    unfold splitOnP at h
    cases hp : p c
    · rw [hp] at h
      simp only [Bool.false_eq_true, if_false] at h
      rcases hx : splitOnP p t with _ | ⟨ch, chs⟩
      · exact absurd hx (splitOnP_ne_nil p t)
      · rw [hx] at h
        cases h
        obtain ⟨rfl, hfree⟩ := ih ch hx
        refine ⟨rfl, ?_⟩
        intro d hd
        rcases List.mem_cons.mp hd with rfl | hd'
        · exact hp
        · exact hfree d hd'
    · rw [hp] at h
      simp only [if_true] at h
      injection h with h1 h2
      exact absurd h2 (splitOnP_ne_nil p t)

lemma splitOnP_eq_pair (p : Char → Bool) :
    ∀ l a b : List Char, splitOnP p l = [a, b] →
      (∃ s, p s = true ∧ l = a ++ s :: b) ∧
        (∀ c ∈ a, p c = false) ∧ (∀ c ∈ b, p c = false) := by
  intro l
  induction l with
  | nil => intro a b h; simp [splitOnP] at h
  | cons c t ih =>
    intro a b h
    unfold splitOnP at h
    cases hp : p c
    · rw [hp] at h
      simp only [Bool.false_eq_true, if_false] at h
      rcases hx : splitOnP p t with _ | ⟨ch, chs⟩
      · exact absurd hx (splitOnP_ne_nil p t)
      · rw [hx] at h
        cases h
        obtain ⟨⟨s, hs, rfl⟩, hfa, hfb⟩ := ih ch b hx
        refine ⟨⟨s, hs, by simp⟩, ?_, hfb⟩
        intro d hd
        rcases List.mem_cons.mp hd with rfl | hd'
        · exact hp
        · exact hfa d hd'
    · rw [hp] at h
      simp only [if_true] at h
      injection h with h1 h2
      obtain ⟨rfl, hfree⟩ := splitOnP_eq_single p t b h2
      subst h1
      exact ⟨⟨c, hp, rfl⟩, by simp, hfree⟩

lemma splitOnP_append (p : Char → Bool) (a b : List Char) (s : Char)
    (ha : ∀ c ∈ a, p c = false) (hs : p s = true) (hb : ∀ c ∈ b, p c = false) :
    splitOnP p (a ++ s :: b) = [a, b] := by
  induction a with
  | nil =>
    simp only [List.nil_append]
    unfold splitOnP
    rw [hs]
    simp only [if_true]
    rw [splitOnP_of_free p b hb]
  | cons c a' ih =>
    have hc : p c = false := ha c (List.mem_cons_self c a')
    have ha' : ∀ d ∈ a', p d = false := fun d hd => ha d (List.mem_cons_of_mem c hd)
    simp only [List.cons_append]
    unfold splitOnP
    rw [hc]
    simp only [Bool.false_eq_true, if_false]
    rw [ih ha']

/- ===== digitRun lemmas ===== -/

lemma digitRun_iff {l : List Char} {n : Nat} :
    digitRun l n = true ↔ l.length = n ∧ ∀ c ∈ l, c.isDigit = true := by
  simp [digitRun, List.all_eq_true]

lemma digitRun14_iff {l : List Char} :
    digitRun14 l = true ↔ 1 ≤ l.length ∧ l.length ≤ 4 ∧ ∀ c ∈ l, c.isDigit = true := by
  simp [digitRun14, List.all_eq_true, and_assoc]

/- ===== Lexicographic comparator lemmas ===== -/

lemma ltChars_asymm : ∀ x y : List Char, ltChars x y = true → ltChars y x = false := by
  intro x
  induction x with
  | nil =>
    intro y h
    cases y with
    | nil => simp [ltChars] at h
    | cons b bs => simp [ltChars]
  | cons a as ih =>
    intro y h
    cases y with
    | nil => simp [ltChars] at h
    | cons b bs =>
      simp only [ltChars] at h ⊢
      rcases lt_trichotomy a b with hlt | heq | hgt
      · simp [hlt, lt_asymm hlt]
      · subst heq
        simp only [lt_irrefl, if_false] at h ⊢
        exact ih bs h
      · simp [hgt, lt_asymm hgt] at h

lemma ltChars_connex : ∀ x y : List Char,
    ltChars x y = false → ltChars y x = false → x = y := by
  intro x
  induction x with
  | nil =>
    intro y h h'
    cases y with
    | nil => rfl
    | cons b bs => simp [ltChars] at h
  | cons a as ih =>
    intro y h h'
    cases y with
    | nil => simp [ltChars] at h'
    | cons b bs =>
      simp only [ltChars] at h h'
      rcases lt_trichotomy a b with hlt | heq | hgt
      · simp [hlt] at h
      · subst heq
        simp only [lt_irrefl, if_false] at h h'
        rw [ih bs h h']
      · simp [hgt, lt_asymm hgt] at h'

lemma ltChars_trans : ∀ x y z : List Char,
    ltChars x y = true → ltChars y z = true → ltChars x z = true := by
  intro x
  induction x with
  | nil =>
    intro y z h h'
    cases z with
    | nil =>
      cases y with
      | nil => simp [ltChars] at h'
      | cons b bs => simp [ltChars] at h'
    | cons c cs => simp [ltChars]
  | cons a as ih =>
    intro y z h h'
    cases y with
    | nil => simp [ltChars] at h
    | cons b bs =>
      cases z with
      | nil => simp [ltChars] at h'
      | cons c cs =>
        simp only [ltChars] at h h' ⊢
        rcases lt_trichotomy a b with hab | hab | hab
        · rcases lt_trichotomy b c with hbc | hbc | hbc
          · simp [lt_trans hab hbc]
          · subst hbc; simp [hab]
          · simp [hbc, lt_asymm hbc] at h'
        · subst hab
          simp only [lt_irrefl, if_false] at h
          rcases lt_trichotomy a c with hac | hac | hac
          · simp [hac]
          · subst hac
            simp only [lt_irrefl, if_false] at h' ⊢
            exact ih bs cs h h'
          · simp [hac, lt_asymm hac] at h'
        · simp [hab, lt_asymm hab] at h

lemma recLeb_total (a b : Record) : recLeb a b = true ∨ recLeb b a = true := by
  unfold recLeb
  cases hx : ltChars b.cipNorm.data a.cipNorm.data
  · left; rfl
  · right; rw [ltChars_asymm _ _ hx]; rfl

lemma recLeb_trans {a b c : Record} (h1 : recLeb a b = true) (h2 : recLeb b c = true) :
    recLeb a c = true := by
  unfold recLeb at h1 h2 ⊢
  rw [Bool.not_eq_true'] at h1 h2 ⊢
  cases hca : ltChars c.cipNorm.data a.cipNorm.data
  · rfl
  · exfalso
    cases hbc : ltChars b.cipNorm.data c.cipNorm.data
    · have heq := ltChars_connex _ _ h2 hbc
      rw [heq] at hca
      simp [h1] at hca
    · have hba := ltChars_trans _ _ _ hbc hca
      simp [h1] at hba

/- ===== Sort lemmas ===== -/

lemma insertRec_perm (r : Record) (l : List Record) :
    List.Perm (insertRec r l) (r :: l) := by
  induction l with
  | nil => exact List.Perm.refl _
  | cons x xs ih =>
    unfold insertRec
    cases h : recLeb r x
    · simp only [Bool.false_eq_true, if_false]
      exact (ih.cons x).trans (List.Perm.swap r x xs)
    · simp only [if_true]
      exact List.Perm.refl _

lemma sortByCip_perm (l : List Record) : List.Perm (sortByCip l) l := by
  induction l with
  | nil => exact List.Perm.refl _
  | cons x xs ih =>
    unfold sortByCip at ih ⊢
    simp only [List.foldr_cons]
    exact (insertRec_perm x _).trans (ih.cons x)

lemma mem_insertRec {r x : Record} {l : List Record} :
    x ∈ insertRec r l ↔ x = r ∨ x ∈ l := by
  rw [(insertRec_perm r l).mem_iff, List.mem_cons]

lemma sorted_insertRec (r : Record) (l : List Record)
    (h : List.Pairwise (fun a b => recLeb a b = true) l) :
    List.Pairwise (fun a b => recLeb a b = true) (insertRec r l) := by
  induction l with
  | nil => simp [insertRec]
  | cons x xs ih =>
    obtain ⟨hx, hxs⟩ := List.pairwise_cons.mp h
    unfold insertRec
    cases hrx : recLeb r x
    · simp only [Bool.false_eq_true, if_false]
      refine List.pairwise_cons.mpr ⟨?_, ih hxs⟩
      intro y hy
      rcases mem_insertRec.mp hy with rfl | hy'
      · rcases recLeb_total y x with h1 | h1
        · rw [h1] at hrx; exact absurd hrx (by simp)
        · exact h1
      · exact hx y hy'
    · simp only [if_true]
      refine List.pairwise_cons.mpr ⟨?_, h⟩
      intro y hy
      rcases List.mem_cons.mp hy with rfl | hy'
      · exact hrx
      · exact recLeb_trans hrx (hx y hy')

lemma sortByCip_sorted (l : List Record) :
    List.Pairwise (fun a b => recLeb a b = true) (sortByCip l) := by
  induction l with
  | nil => simp [sortByCip]
  | cons x xs ih =>
    unfold sortByCip at ih ⊢
    simp only [List.foldr_cons]
    exact sorted_insertRec x _ ih

/- ===== Scan-loop lemmas ===== -/

/-- With no possibility of truncation, the scan loop is exactly a filter. -/
lemma scanAux_no_trunc (stemOnly : Bool) (hit : Record → Bool) (limit : Nat) :
    ∀ (l acc : List Record), acc.length + l.length ≤ limit →
      scanAux stemOnly hit limit acc l =
        acc ++ l.filter (fun r => !(stemOnly && !r.stemEligible) && hit r) := by
  intro l
  induction l with
  | nil => intro acc h; simp [scanAux]
  | cons r rs ih =>
    intro acc h
    have hlen : acc.length + (rs.length + 1) ≤ limit := by
      rw [List.length_cons] at h; exact h
    unfold scanAux
    cases hskip : (stemOnly && !r.stemEligible)
    · simp only [Bool.false_eq_true, if_false]
      cases hhit : hit r
      · have hpred : (!(stemOnly && !r.stemEligible) && hit r) = false := by
          rw [hskip, hhit]; rfl
        simp only [Bool.false_eq_true, if_false]
        rw [if_neg (by omega : ¬ limit ≤ acc.length)]
        rw [ih acc (by omega)]
        rw [List.filter_cons, hpred, if_neg Bool.false_ne_true]
      · have hpred : (!(stemOnly && !r.stemEligible) && hit r) = true := by
          rw [hskip, hhit]; rfl
        simp only [if_true]
        have hacc : (acc ++ [r]).length = acc.length + 1 := by simp
        by_cases hbr : limit ≤ (acc ++ [r]).length
        · have hrs : rs = [] := by
            cases rs with
            | nil => rfl
            | cons y ys => rw [hacc] at hbr; simp [List.length_cons] at hlen; omega
          subst hrs
          rw [if_pos hbr]
          rw [List.filter_cons, hpred, if_pos rfl]
          simp
        · rw [if_neg hbr]
          rw [ih (acc ++ [r]) (by rw [hacc]; omega)]
          rw [List.filter_cons, hpred, if_pos rfl]
          simp
    · have hpred : (!(stemOnly && !r.stemEligible) && hit r) = false := by
        rw [hskip]; rfl
      simp only [if_true]
      rw [ih acc (by omega)]
      rw [List.filter_cons, hpred, if_neg Bool.false_ne_true]

/-- Sharper no-truncation condition: it is enough that the limit leaves room
for the records that will actually be kept.  The break check can first
succeed only at or after the moment the last kept record has been appended,
so the scan still collects the whole filter. -/
lemma scanAux_no_trunc_hits (stemOnly : Bool) (hit : Record → Bool) (limit : Nat) :
    ∀ (l acc : List Record),
      acc.length +
        (l.filter (fun r => !(stemOnly && !r.stemEligible) && hit r)).length ≤ limit →
      scanAux stemOnly hit limit acc l =
        acc ++ l.filter (fun r => !(stemOnly && !r.stemEligible) && hit r) := by
  intro l
  induction l with
  | nil => intro acc h; simp [scanAux]
  | cons r rs ih =>
    intro acc h
    unfold scanAux
    cases hskip : (stemOnly && !r.stemEligible)
    · simp only [Bool.false_eq_true, if_false]
      cases hhit : hit r
      · have hpred : (!(stemOnly && !r.stemEligible) && hit r) = false := by
          rw [hskip, hhit]; rfl
        have hfc : (r :: rs).filter (fun x => !(stemOnly && !x.stemEligible) && hit x)
            = rs.filter (fun x => !(stemOnly && !x.stemEligible) && hit x) := by
          rw [List.filter_cons, hpred, if_neg Bool.false_ne_true]
        rw [hfc] at h ⊢
        simp only [Bool.false_eq_true, if_false]
        by_cases hbr : limit ≤ acc.length
        · rw [if_pos hbr]
          have hnil : rs.filter (fun x => !(stemOnly && !x.stemEligible) && hit x) = [] := by
            rw [← List.length_eq_zero]
            omega
          rw [hnil, List.append_nil]
        · rw [if_neg hbr]
          exact ih acc h
      · have hpred : (!(stemOnly && !r.stemEligible) && hit r) = true := by
          rw [hskip, hhit]; rfl
        have hfc : (r :: rs).filter (fun x => !(stemOnly && !x.stemEligible) && hit x)
            = r :: rs.filter (fun x => !(stemOnly && !x.stemEligible) && hit x) := by
          rw [List.filter_cons, hpred, if_pos rfl]
        rw [hfc] at h ⊢
        rw [List.length_cons] at h
        simp only [if_true]
        have hacc : (acc ++ [r]).length = acc.length + 1 := by simp
        by_cases hbr : limit ≤ (acc ++ [r]).length
        · rw [if_pos hbr]
          rw [hacc] at hbr
          have hnil : rs.filter (fun x => !(stemOnly && !x.stemEligible) && hit x) = [] := by
            rw [← List.length_eq_zero]
            omega
          rw [hnil]
        · rw [if_neg hbr]
          rw [ih (acc ++ [r]) (by rw [hacc]; omega)]
          simp
    · have hpred : (!(stemOnly && !r.stemEligible) && hit r) = false := by
        rw [hskip]; rfl
      have hfc : (r :: rs).filter (fun x => !(stemOnly && !x.stemEligible) && hit x)
          = rs.filter (fun x => !(stemOnly && !x.stemEligible) && hit x) := by
        rw [List.filter_cons, hpred, if_neg Bool.false_ne_true]
      rw [hfc] at h ⊢
      simp only [if_true]
      exact ih acc h

/-- If no record can hit, the scan loop returns the empty accumulator. -/
lemma scanAux_nohit (stemOnly : Bool) (hit : Record → Bool) (limit : Nat)
    (hno : ∀ r, hit r = false) :
    ∀ l : List Record, scanAux stemOnly hit limit [] l = [] := by
  intro l
  induction l with
  | nil => rfl
  | cons r rs ih =>
    unfold scanAux
    cases hskip : (stemOnly && !r.stemEligible)
    · simp only [Bool.false_eq_true, if_false, hno r, List.nil_append]
      by_cases hbr : limit ≤ ([] : List Record).length
      · rw [if_pos hbr]
      · rw [if_neg hbr]; exact ih
    · simp only [if_true]; exact ih

/-- Length bound of the scan loop: starting strictly below the limit, the
result never exceeds the limit (the break check runs after each append). -/
lemma scanAux_len (stemOnly : Bool) (hit : Record → Bool) (limit : Nat) :
    ∀ (l acc : List Record), acc.length < limit →
      (scanAux stemOnly hit limit acc l).length ≤ limit := by
  intro l
  induction l with
  | nil => intro acc h; simpa [scanAux] using Nat.le_of_lt h
  | cons r rs ih =>
    intro acc h
    unfold scanAux
    cases hskip : (stemOnly && !r.stemEligible)
    · simp only [Bool.false_eq_true, if_false]
      cases hhit : hit r
      · simp only [Bool.false_eq_true, if_false]
        rw [if_neg (by omega : ¬ limit ≤ acc.length)]
        exact ih acc h
      · simp only [if_true]
        have hacc : (acc ++ [r]).length = acc.length + 1 := by simp
        by_cases hbr : limit ≤ (acc ++ [r]).length
        · rw [if_pos hbr, hacc]; omega
        · rw [if_neg hbr]
          exact ih (acc ++ [r]) (by rw [hacc] at hbr ⊢; omega)
    · simp only [if_true]; exact ih acc h

/-- With `limit = 0` the loop breaks right after examining the first record
that passes the STEM filter. -/
lemma scanAux_limit0 (stemOnly : Bool) (hit : Record → Bool) :
    ∀ l : List Record, scanAux stemOnly hit 0 [] l =
      (match l.find? (fun r => !(stemOnly && !r.stemEligible)) with
       | some r => if hit r then [r] else []
       | none => []) := by
  intro l
  induction l with
  | nil => rfl
  | cons r rs ih =>
    unfold scanAux
    cases hskip : (stemOnly && !r.stemEligible)
    · simp only [Bool.false_eq_true, if_false]
      rw [List.find?_cons_of_pos _ (by simp [hskip])]
      cases hhit : hit r
      · simp [hhit]
      · simp [hhit]
    · simp only [if_true]
      rw [List.find?_cons_of_neg _ (by simp [hskip])]
      exact ih

/- ===== byCip map lemmas ===== -/

lemma lastWith_eq_none (k : String) :
    ∀ l : List Record, (∀ r ∈ l, r.cipNorm ≠ k) → lastWith k l = none := by
  intro l
  induction l with
  | nil => intro _; rfl
  | cons r rs ih =>
    intro h
    unfold lastWith
    rw [ih (fun x hx => h x (List.mem_cons_of_mem r hx))]
    rw [beq_eq_false_iff_ne.mpr (h r (List.mem_cons_self r rs))]
    rfl

lemma lastWith_eq_some (k : String) (r : Record) :
    ∀ l : List Record, r ∈ l → r.cipNorm = k →
      (∀ x ∈ l, x.cipNorm = k → x = r) → lastWith k l = some r := by
  intro l
  induction l with
  | nil => intro hm; exact absurd hm (List.not_mem_nil r)
  | cons x xs ih =>
    intro hm hk hu
    unfold lastWith
    by_cases hrx : r ∈ xs
    · rw [ih hrx hk (fun y hy hyk => hu y (List.mem_cons_of_mem x hy) hyk)]
    · have hx : x = r := by
        rcases List.mem_cons.mp hm with rfl | h'
        · rfl
        · exact absurd h' hrx
      subst hx
      have hnone : lastWith k xs = none := by
        apply lastWith_eq_none
        intro y hy hyk
        exact hrx ((hu y (List.mem_cons_of_mem x hy) hyk) ▸ hy)
      rw [hnone]
      rw [beq_iff_eq.mpr hk]
      rfl

/- ===== String construction facts ===== -/

lemma mk_ne_empty {c : Char} {l : List Char} : (⟨c :: l⟩ : String) ≠ "" := by
  intro h
  have h2 := congrArg String.data h
  simp at h2

lemma isDotChar_eq {c : Char} (h : isDotChar c = true) : c = '.' := by
  simpa [isDotChar] using h

lemma stemPass_iff {stemOnly e : Bool} :
    (!(stemOnly && !e)) = true ↔ (stemOnly = true → e = true) := by
  cases stemOnly <;> cases e <;> simp

/- ===== Non-code queries cannot CIP-match ===== -/

/-- If `normalizeCipInput` rejects the input, `matchCipPrefix` cannot accept it:
both of its accepting shapes would have produced a nonempty canonical form. -/
lemma matchCipPrefix_eq_false_of_ncip (r : Record) (u : String)
    (h : normalizeCipInput u = "") : matchCipPrefix r u = false := by
  unfold matchCipPrefix
  cases h0 : (trimList u.data).isEmpty
  · simp only [h0, Bool.false_eq_true, if_false]
    cases h2 : digitRun (trimList u.data) 2
    · simp only [Bool.false_eq_true, if_false]
      rcases hsd : splitDot (trimList u.data) with _ | ⟨a, _ | ⟨b, _ | _⟩⟩
      · rfl
      · rfl
      · cases hg : (digitRun a 2 && digitRun b 2)
        · simp [hg]
        · exfalso
          obtain ⟨ha, hb⟩ : digitRun a 2 = true ∧ digitRun b 2 = true := by
            simpa using hg
          obtain ⟨⟨sep, hsep, hdec⟩, _, _⟩ := splitOnP_eq_pair isDotChar _ a b hsd
          have hsep' : sep = '.' := isDotChar_eq hsep
          subst hsep'
          obtain ⟨ha2, had⟩ := digitRun_iff.mp ha
          obtain ⟨hb2, hbd⟩ := digitRun_iff.mp hb
          unfold normalizeCipInput at h
          simp only [h0, Bool.false_eq_true, if_false] at h
          have hfil : (trimList u.data).filter (fun c => !isBracketChar c) = trimList u.data := by
            apply List.filter_eq_self.mpr
            intro c hc
            rw [hdec] at hc
            rcases List.mem_append.mp hc with hc1 | hc2
            · rw [digit_not_bracket (had c hc1)]; rfl
            · rcases List.mem_cons.mp hc2 with rfl | hc3
              · rw [dot_not_bracket]; rfl
              · rw [digit_not_bracket (hbd c hc3)]; rfl
          rw [hfil, h2] at h
          simp only [Bool.false_eq_true, if_false] at h
          rw [hsd] at h
          simp only [hg, if_true] at h
          rcases a with _ | ⟨a1, as⟩
          · simp at ha2
          · rw [List.cons_append] at h
            exact mk_ne_empty h
      · rfl
    · -- family branch would be taken, but then the canonical form is nonempty
      exfalso
      obtain ⟨hlen, hdig⟩ := digitRun_iff.mp h2
      unfold normalizeCipInput at h
      simp only [h0, Bool.false_eq_true, if_false] at h
      have hfil : (trimList u.data).filter (fun c => !isBracketChar c) = trimList u.data := by
        apply List.filter_eq_self.mpr
        intro c hc
        rw [digit_not_bracket (hdig c hc)]; rfl
      rw [hfil, h2] at h
      simp only [if_true] at h
      rcases hl : trimList u.data with _ | ⟨c1, cs⟩
      · rw [hl] at hlen; simp at hlen
      · rw [hl, List.cons_append] at h
        exact mk_ne_empty h
  · simp only [h0, if_true]

/- ===== search unfolding lemmas ===== -/

/-- When the exact-match branch is not taken (non-code query, or code not in
the map), `search` is the scan loop followed by the sort. -/
lemma search_eq_scan (records : List Record) (q : String) (stemOnly : Bool) (limit : Nat)
    (h : normalizeCipInput (jsTrim q) = "" ∨
      lastWith (normalizeCipInput (jsTrim q)) records = none) :
    search records q stemOnly limit =
      sortByCip (scanAux stemOnly
        (hitPred (jsTrim q) (normalizeText (jsTrim q)) (normalizeCipInput (jsTrim q)))
        limit [] records) := by
  simp only [search]
  rcases h with h | h
  · rw [h]; simp
  · cases hx : (normalizeCipInput (jsTrim q) == "")
    · simp only [hx, Bool.false_eq_true, if_false]
      rw [h]
    · simp only [hx, if_true]

/-- With no truncation possible, `search` is a sorted filter. -/
lemma search_eq_sort_filter (records : List Record) (q : String) (stemOnly : Bool) (limit : Nat)
    (h : normalizeCipInput (jsTrim q) = "" ∨
      lastWith (normalizeCipInput (jsTrim q)) records = none)
    (hlim : records.length ≤ limit) :
    search records q stemOnly limit =
      sortByCip (records.filter (fun r =>
        !(stemOnly && !r.stemEligible) &&
          hitPred (jsTrim q) (normalizeText (jsTrim q)) (normalizeCipInput (jsTrim q)) r)) := by
  rw [search_eq_scan records q stemOnly limit h]
  rw [scanAux_no_trunc _ _ _ records [] (by simpa using hlim)]
  rw [List.nil_append]

/-- Variant of `search_eq_sort_filter` under the sharper bound: the limit only
needs to cover the records the scan will keep. -/
lemma search_eq_sort_filter_hits (records : List Record) (q : String) (stemOnly : Bool)
    (limit : Nat)
    (h : normalizeCipInput (jsTrim q) = "" ∨
      lastWith (normalizeCipInput (jsTrim q)) records = none)
    (hlim : (records.filter (fun r =>
        !(stemOnly && !r.stemEligible) &&
          hitPred (jsTrim q) (normalizeText (jsTrim q))
            (normalizeCipInput (jsTrim q)) r)).length ≤ limit) :
    search records q stemOnly limit =
      sortByCip (records.filter (fun r =>
        !(stemOnly && !r.stemEligible) &&
          hitPred (jsTrim q) (normalizeText (jsTrim q)) (normalizeCipInput (jsTrim q)) r)) := by
  rw [search_eq_scan records q stemOnly limit h]
  rw [scanAux_no_trunc_hits _ _ _ records [] (by simpa using hlim)]
  rw [List.nil_append]

/-- For a non-code query, the hit test is exactly title containment of the
normalized query text. -/
lemma hitPred_of_ncip (q : String) (hcip : normalizeCipInput (jsTrim q) = "")
    (hqt : ¬ normalizeText (jsTrim q) = "") (r : Record) :
    hitPred (jsTrim q) (normalizeText (jsTrim q)) (normalizeCipInput (jsTrim q)) r =
      strIncludes r.titleNorm (normalizeText (jsTrim q)) := by
  unfold hitPred
  rw [matchCipPrefix_eq_false_of_ncip r (jsTrim q) hcip, hcip,
    beq_eq_false_iff_ne.mpr hqt]
  simp

/- ===== Concrete records for witnesses and counterexamples ===== -/

def recRollup : Record := loadRecord ⟨"14.0900", "", "Engineering General", "rollup record", true⟩

def recComp : Record := loadRecord ⟨"14.0901", "", "Computer Engineering", "about computers", true⟩

def recTextCode : Record := loadRecord ⟨"99.0101", "", "Room 14.0901 studies", "other", false⟩

def recAgri : Record := loadRecord ⟨"14.0101", "", "Agricultural Engineering", "farms", true⟩

def recAbc : Record := loadRecord ⟨"15.0101", "", "abc", "computer engineering", true⟩

def recXAlpha : Record := loadRecord ⟨"10.0101", "", "x alpha", "", false⟩

def recXBeta : Record := loadRecord ⟨"11.0101", "", "x beta", "", true⟩

/- ===== Claim C1 ===== -/

/-- C1 (amended): for a non-code query, the engine's keyword path includes a
record iff the whole normalized query text is a substring of the record's
normalized **title** (the definition is not searched, and the query is not
split into tokens). -/
theorem c1_keyword_title_phrase (records : List Record) (q : String) (stemOnly : Bool)
    (limit : Nat) (hcip : normalizeCipInput (jsTrim q) = "")
    (hqt : ¬ normalizeText (jsTrim q) = "") (hlim : records.length ≤ limit) (r : Record) :
    r ∈ search records q stemOnly limit ↔
      r ∈ records ∧ (stemOnly = true → r.stemEligible = true) ∧
        strIncludes r.titleNorm (normalizeText (jsTrim q)) = true := by
  rw [search_eq_sort_filter records q stemOnly limit (Or.inl hcip) hlim]
  rw [(sortByCip_perm _).mem_iff]
  simp only [List.mem_filter, Bool.and_eq_true, hitPred_of_ncip q hcip hqt r, stemPass_iff]

/-- C1 counterexample: the claimed token-AND-over-title+definition predicate
holds for this record and query, yet the engine's `search` excludes it — the
engine only tests the whole query phrase against the title. -/
theorem c1_counterexample :
    specKeywordAndMatch recAbc "computer engineering" = true ∧
      search [recAbc] "computer engineering" false 10 = [] :=
  ⟨by decide, by decide⟩

/-- C1 witness. -/
theorem c1_witness : recComp ∈ search [recComp] "computer engineering" false 10 :=
  (c1_keyword_title_phrase [recComp] "computer engineering" false 10 (by decide) (by decide)
    (by decide) recComp).mpr (by decide)

/- ===== Claim C2 ===== -/

/-- C2 (amended): the query engine's `search` returns the empty sequence for
an empty query (for every stemOnly flag and limit); the page-level
`searchIndex` returns the first 50 records in stored order (the first 50
eligible records when stemOnly is set). -/
theorem c2_empty_query (records : List Record) :
    (∀ (stemOnly : Bool) (limit : Nat), search records "" stemOnly limit = []) ∧
      searchIndex records "" false = records.take 50 ∧
      searchIndex records "" true = (records.filter (fun r => r.stemEligible)).take 50 := by
  refine ⟨?_, rfl, rfl⟩
  intro stemOnly limit
  rw [search_eq_scan records "" stemOnly limit (Or.inl (by decide))]
  rw [scanAux_nohit stemOnly
    (hitPred (jsTrim "") (normalizeText (jsTrim "")) (normalizeCipInput (jsTrim "")))
    limit (fun r => rfl) records]
  rfl

/-- C2 counterexample: on a one-record collection, `search "" false 10`
returns `[]`, not the first 10 records in stored order. -/
theorem c2_counterexample :
    search [recComp] "" false 10 = [] ∧ [recComp].take 10 = [recComp] :=
  ⟨by decide, by decide⟩

/- ===== Claim C3 ===== -/

/-- C3: exact-match short-circuit.  If the canonicalized query equals the
canonical code of a record `r` (unique holder of that code), `search` returns
`[r]` when `r` passes the stemOnly filter and `[]` otherwise, regardless of
every other record's title or definition text and of the limit. -/
theorem c3_exact_short_circuit (records : List Record) (q : String) (stemOnly : Bool)
    (limit : Nat) (r : Record) (hmem : r ∈ records)
    (hk : normalizeCipInput (jsTrim q) = r.cipNorm) (hne : ¬ r.cipNorm = "")
    (huniq : ∀ x ∈ records, x.cipNorm = r.cipNorm → x = r) :
    search records q stemOnly limit = if stemOnly && !r.stemEligible then [] else [r] := by
  simp only [search]
  rw [hk, beq_eq_false_iff_ne.mpr hne]
  simp only [Bool.false_eq_true, if_false]
  rw [lastWith_eq_some r.cipNorm r records hmem rfl huniq]

/-- C3 witness: the queried code returns only its record even though another
record's title contains the code as text. -/
theorem c3_witness : search [recComp, recTextCode] "14.0901" false 10 = [recComp] :=
  (c3_exact_short_circuit [recComp, recTextCode] "14.0901" false 10 recComp
    (by decide) (by decide) (by decide) (by decide)).trans (by decide)

/- ===== Claim C8 ===== -/

/-- C8 (amended): for every positive limit, the result of `search` has length
at most the limit (with limit 0 the exact branch and the post-append break
can still produce one element, see C10). -/
theorem c8_limit_bound (records : List Record) (q : String) (stemOnly : Bool) (limit : Nat)
    (hlim : 1 ≤ limit) :
    (search records q stemOnly limit).length ≤ limit := by
  have hscan :
      (sortByCip (scanAux stemOnly
        (hitPred (jsTrim q) (normalizeText (jsTrim q)) (normalizeCipInput (jsTrim q)))
        limit [] records)).length ≤ limit := by
    rw [(sortByCip_perm _).length_eq]
    exact scanAux_len _ _ _ records [] (by simpa using hlim)
  simp only [search]
  cases hx : (normalizeCipInput (jsTrim q) == "")
  · simp only [hx, Bool.false_eq_true, if_false]
    cases hlw : lastWith (normalizeCipInput (jsTrim q)) records with
    | none => exact hscan
    | some rec =>
      cases hb : (stemOnly && !rec.stemEligible)
      · simp only [hb, Bool.false_eq_true, if_false, List.length_cons, List.length_nil]
        omega
      · simp only [hb, if_true, List.length_nil]
        omega
  · simp only [hx, if_true]
    exact hscan

/-- C8 counterexample: with limit 0 (outside the documented positive-limit
domain, which the claim nevertheless quantifies over), the exact-match branch
returns one element, so the length bound fails. -/
theorem c8_counterexample : ¬ (search [recComp] "14.0901" false 0).length ≤ 0 := by decide

/-- C8 witness. -/
theorem c8_witness : (search [recComp] "14.0901" false 5).length ≤ 5 :=
  c8_limit_bound [recComp] "14.0901" false 5 (by decide)

/- ===== Claim C10 ===== -/

/-- C10 (amended): with limit 0 and the exact branch not taken, the post-body
break means exactly the first record passing the stemOnly filter is examined:
if it hits, `search` returns that one record; otherwise it returns `[]` even
when later records would match. -/
theorem c10_limit0 (records : List Record) (q : String) (stemOnly : Bool)
    (h : normalizeCipInput (jsTrim q) = "" ∨
      lastWith (normalizeCipInput (jsTrim q)) records = none) :
    search records q stemOnly 0 =
      (match records.find? (fun r => !(stemOnly && !r.stemEligible)) with
       | some r =>
         if hitPred (jsTrim q) (normalizeText (jsTrim q)) (normalizeCipInput (jsTrim q)) r
         then [r] else []
       | none => []) := by
  rw [search_eq_scan records q stemOnly 0 h, scanAux_limit0]
  cases hf : records.find? (fun r => !(stemOnly && !r.stemEligible)) with
  | none => rfl
  | some a =>
    cases hh : hitPred (jsTrim q) (normalizeText (jsTrim q)) (normalizeCipInput (jsTrim q)) a
    · simp only [hh, Bool.false_eq_true, if_false]; rfl
    · simp only [hh, if_true]; rfl

/-- C10 counterexample: a non-exact-code query with a matching record still
returns `[]` at limit 0 when the first record does not match — the break
check runs after every non-skipped iteration, not only after appends. -/
theorem c10_counterexample :
    normalizeCipInput (jsTrim "beta") = "" ∧
      search [recXAlpha, recXBeta] "beta" false 10 = [recXBeta] ∧
      search [recXAlpha, recXBeta] "beta" false 0 = [] :=
  ⟨by decide, by decide, by decide⟩

/-- C10 witness: at limit 0 the first record, when it matches, is returned. -/
theorem c10_witness : search [recXAlpha] "alpha" false 0 = [recXAlpha] :=
  (c10_limit0 [recXAlpha] "alpha" false (Or.inl (by decide))).trans (by decide)

/- ===== Claim C7 ===== -/

/-- C7 (amended): provided the limit is at least the collection size (so the
scan cannot truncate), every record returned by the stem-filtered search is
also returned by the unfiltered search and is eligible.  (With a truncating
limit the subset property fails, see the counterexample.) -/
theorem c7_stem_subset (records : List Record) (q : String) (limit : Nat)
    (hlim : records.length ≤ limit) (r : Record)
    (hr : r ∈ search records q true limit) :
    r ∈ search records q false limit ∧ r.stemEligible = true := by
  by_cases hor : normalizeCipInput (jsTrim q) = "" ∨
      lastWith (normalizeCipInput (jsTrim q)) records = none
  · rw [search_eq_sort_filter records q true limit hor hlim] at hr
    rw [search_eq_sort_filter records q false limit hor hlim]
    rw [(sortByCip_perm _).mem_iff] at hr
    rw [(sortByCip_perm _).mem_iff]
    simp only [List.mem_filter, Bool.and_eq_true] at hr ⊢
    obtain ⟨hmem, hpass, hhit⟩ := hr
    have helig : r.stemEligible = true := stemPass_iff.mp hpass rfl
    exact ⟨⟨hmem, by simp, hhit⟩, helig⟩
  · push_neg at hor
    obtain ⟨hne, hsome⟩ := hor
    rcases hlw : lastWith (normalizeCipInput (jsTrim q)) records with _ | rec
    · exact absurd hlw hsome
    · have hx : (normalizeCipInput (jsTrim q) == "") = false := beq_eq_false_iff_ne.mpr hne
      simp only [search, hx, Bool.false_eq_true, if_false, hlw] at hr ⊢
      cases he : rec.stemEligible
      · rw [he] at hr; simp at hr
      · rw [he] at hr
        simp at hr
        subst hr
        simp [he]

/-- C7 counterexample: with a truncating limit the unfiltered search fills up
with an earlier non-eligible hit and breaks, so the stem-filtered result is
not a subset of the eligible part of the unfiltered result. -/
theorem c7_counterexample :
    ¬ ∀ r ∈ search [recXAlpha, recXBeta] "x" true 1,
        r ∈ search [recXAlpha, recXBeta] "x" false 1 ∧ r.stemEligible = true := by decide

/-- C7 witness. -/
theorem c7_witness :
    recXBeta ∈ search [recXBeta] "x" false 1 ∧ recXBeta.stemEligible = true :=
  c7_stem_subset [recXBeta] "x" 1 (by decide) recXBeta (by decide)

/- ===== Claim C5 ===== -/

/-- C5 (amended): a query typed as exactly two digits `NN` is a family search:
provided no record carries the rolled-up code `NN.0000` (which would trigger
the exact branch) and the limit does not truncate, `search` includes every
record whose `cipFamily` equals `NN`.  (A fully typed `NN.0000` query is not
treated this way, see the counterexample.) -/
theorem c5_family_two_digit (records : List Record) (d1 d2 : Char) (q : String)
    (limit : Nat) (r : Record)
    (hq : q.data = [d1, d2]) (hd1 : d1.isDigit = true) (hd2 : d2.isDigit = true)
    (hno : ∀ x ∈ records, x.cipNorm ≠ (⟨[d1, d2, '.', '0', '0', '0', '0']⟩ : String))
    (hmem : r ∈ records) (hfam : r.cipFamily = (⟨[d1, d2]⟩ : String))
    (hlim : records.length ≤ limit) :
    r ∈ search records q false limit := by
  have hnw : ∀ c ∈ q.data, isWs c = false := by
    rw [hq]; intro c hc
    rcases List.mem_cons.mp hc with rfl | hc2
    · exact digit_not_ws hd1
    · rcases List.mem_cons.mp hc2 with rfl | hc3
      · exact digit_not_ws hd2
      · exact absurd hc3 (List.not_mem_nil c)
  have htrim : jsTrim q = q := by
    unfold jsTrim; rw [trimList_of_noWs hnw]
  have hdr : digitRun [d1, d2] 2 = true := by simp [digitRun, hd1, hd2]
  have hcanon : normalizeCipInput q = (⟨[d1, d2, '.', '0', '0', '0', '0']⟩ : String) := by
    simp only [normalizeCipInput]
    rw [trimList_of_noWs hnw, hq]
    have hfil : [d1, d2].filter (fun c => !isBracketChar c) = [d1, d2] := by
      apply List.filter_eq_self.mpr
      intro c hc
      rcases List.mem_cons.mp hc with rfl | hc2
      · rw [digit_not_bracket hd1]; rfl
      · rcases List.mem_cons.mp hc2 with rfl | hc3
        · rw [digit_not_bracket hd2]; rfl
        · exact absurd hc3 (List.not_mem_nil c)
    rw [hfil, hdr]
    simp
  have hor : normalizeCipInput (jsTrim q) = "" ∨
      lastWith (normalizeCipInput (jsTrim q)) records = none := by
    right
    rw [htrim, hcanon]
    exact lastWith_eq_none _ records hno
  rw [search_eq_sort_filter records q false limit hor hlim]
  rw [(sortByCip_perm _).mem_iff]
  simp only [List.mem_filter]
  refine ⟨hmem, ?_⟩
  have hmcp : matchCipPrefix r (jsTrim q) = true := by
    rw [htrim]
    simp only [matchCipPrefix]
    rw [trimList_of_noWs hnw, hq, hdr]
    simp only [List.isEmpty_cons, Bool.false_eq_true, if_false, if_true]
    rw [hfam]
    exact beq_self_eq_true _
  simp only [hitPred, hmcp, Bool.true_or]
  simp

/-- C5 counterexample: `"14.0000"` canonicalizes to a `.0000` form, yet a
record of family 14 with code `"14.0901"` is not matched by the engine — the
fully typed form only reaches the `"14.00"` prefix fallback, not the
`cipFamily` equality path. -/
theorem c5_counterexample :
    strEndsWith (normalizeCipInput (jsTrim "14.0000")) ".0000" = true ∧
      recComp.cipFamily = "14" ∧
      search [recComp] "14.0000" false 10 = [] :=
  ⟨by decide, by decide, by decide⟩

/-- C5 witness. -/
theorem c5_witness : recComp ∈ search [recComp] "14" false 10 :=
  c5_family_two_digit [recComp] '1' '4' "14" 10 recComp (by decide) (by decide)
    (by decide) (by decide) (by decide) (by decide) (by decide)

/- ===== Claim C4 ===== -/

/-- C4 (amended): searching `"14.09"` (stemOnly false, limit at least the
number of matching records) returns exactly the records whose canonical code
starts with `"14.09"`, in ascending code order, **provided** no record carries
the rolled-up code `"14.0900"` itself (that record would trigger the exact
branch and be returned alone) and no record's normalized title contains
`"14.09"` as text (the keyword path would add it).  The limit only needs to
cover the matching records: the scan's break can first fire when the last
match has been appended. -/
theorem c4_subfamily (records : List Record) (limit : Nat)
    (hno : ∀ x ∈ records, x.cipNorm ≠ "14.0900")
    (htitle : ∀ x ∈ records, strIncludes x.titleNorm "14.09" = false)
    (hlim : (records.filter (fun x => strStartsWith x.cipNorm "14.09")).length ≤ limit) :
    List.Perm (search records "14.09" false limit)
        (records.filter (fun x => strStartsWith x.cipNorm "14.09")) ∧
      List.Pairwise (fun a b => recLeb a b = true)
        (search records "14.09" false limit) := by
  have hor : normalizeCipInput (jsTrim "14.09") = "" ∨
      lastWith (normalizeCipInput (jsTrim "14.09")) records = none := by
    right
    rw [show normalizeCipInput (jsTrim "14.09") = "14.0900" from rfl]
    exact lastWith_eq_none _ records hno
  have hfc : records.filter (fun x =>
        !(false && !x.stemEligible) && hitPred (jsTrim "14.09")
          (normalizeText (jsTrim "14.09")) (normalizeCipInput (jsTrim "14.09")) x)
      = records.filter (fun x => strStartsWith x.cipNorm "14.09") := by
    apply List.filter_congr
    intro x hx
    have ht := htitle x hx
    show (!(false && !x.stemEligible) && hitPred (jsTrim "14.09")
      (normalizeText (jsTrim "14.09")) (normalizeCipInput (jsTrim "14.09")) x) =
        strStartsWith x.cipNorm "14.09"
    simp only [Bool.false_and, Bool.not_false, Bool.true_and]
    simp only [hitPred]
    rw [show matchCipPrefix x (jsTrim "14.09") = strStartsWith x.cipNorm "14.09" from rfl]
    rw [show normalizeText (jsTrim "14.09") = "14.09" from rfl]
    rw [show normalizeCipInput (jsTrim "14.09") = "14.0900" from rfl]
    rw [show (⟨("14.0900" : String).data.take 5⟩ : String) = "14.09" from rfl]
    rw [ht]
    cases hsw : strStartsWith x.cipNorm "14.09" <;> simp
  have hlim2 : (records.filter (fun x =>
      !(false && !x.stemEligible) && hitPred (jsTrim "14.09")
        (normalizeText (jsTrim "14.09")) (normalizeCipInput (jsTrim "14.09")) x)).length
      ≤ limit := by
    rw [hfc]; exact hlim
  rw [search_eq_sort_filter_hits records "14.09" false limit hor hlim2, hfc]
  exact ⟨sortByCip_perm _, sortByCip_sorted _⟩

/-- C4 counterexample: in a collection that contains the rolled-up record
`"14.0900"`, searching `"14.09"` returns only that record — not all records
whose code starts with `"14.09"`. -/
theorem c4_counterexample :
    search [recRollup, recComp] "14.09" false 10 = [recRollup] ∧
      [recRollup, recComp].filter (fun x => strStartsWith x.cipNorm "14.09")
        = [recRollup, recComp] :=
  ⟨by decide, by decide⟩

/-- C4 witness: the limit (1) equals the number of matching records and is
smaller than the collection, exercising the sharp bound. -/
theorem c4_witness :
    List.Perm (search [recComp, recAgri] "14.09" false 1)
        ([recComp, recAgri].filter (fun x => strStartsWith x.cipNorm "14.09")) ∧
      List.Pairwise (fun a b => recLeb a b = true)
        (search [recComp, recAgri] "14.09" false 1) :=
  c4_subfamily [recComp, recAgri] 1 (by decide) (by decide) (by decide)

/- ===== Claim C6 ===== -/

/-- C6 (amended): for an input of the shape two digits, dot, one-to-four
digits that is not covered by the `NN.NN` or `NN.NNNN` rules, both
canonicalizers pad the right segment with zeros **on the left**
(`padStart(4, "0")`), so `canonicalize("14.9") = "14.0009"`, not
`"14.9000"`. -/
theorem c6_padStart_left (a b : List Char)
    (ha : digitRun a 2 = true) (hb : digitRun14 b = true)
    (hb2 : b.length ≠ 2) (hb4 : b.length ≠ 4) :
    normalizeCipInput ⟨a ++ '.' :: b⟩ = (⟨a ++ '.' :: padStart4 b⟩ : String) ∧
      canonicalCip ⟨a ++ '.' :: b⟩ = (⟨a ++ '.' :: padStart4 b⟩ : String) := by
  obtain ⟨ha2, had⟩ := digitRun_iff.mp ha
  obtain ⟨hbl1, hbl4, hbd⟩ := digitRun14_iff.mp hb
  have hmemElim : ∀ (P : Char → Bool), (∀ c, c.isDigit = true → P c = false) →
      P '.' = false → ∀ c ∈ a ++ '.' :: b, P c = false := by
    intro P hdig hdot c hc
    rcases List.mem_append.mp hc with hc1 | hc2
    · exact hdig c (had c hc1)
    · rcases List.mem_cons.mp hc2 with rfl | hc3
      · exact hdot
      · exact hdig c (hbd c hc3)
  have hnw : ∀ c ∈ a ++ '.' :: b, isWs c = false :=
    hmemElim isWs (fun c hc => digit_not_ws hc) dot_not_ws
  have htl : trimList (a ++ '.' :: b) = a ++ '.' :: b := trimList_of_noWs hnw
  have hne : (a ++ '.' :: b).isEmpty = false := by
    rcases a with _ | ⟨a1, as⟩
    · simp at ha2
    · rw [List.cons_append]; rfl
  have hfil : (a ++ '.' :: b).filter (fun c => !isBracketChar c) = a ++ '.' :: b := by
    apply List.filter_eq_self.mpr
    intro c hc
    rw [hmemElim isBracketChar (fun c hc => digit_not_bracket hc) dot_not_bracket c hc]
    rfl
  have hbeq2 : ((a ++ '.' :: b).length == 2) = false := by
    rw [beq_eq_false_iff_ne]
    rw [List.length_append, ha2, List.length_cons]
    omega
  have hdr2 : digitRun (a ++ '.' :: b) 2 = false := by
    unfold digitRun; rw [hbeq2]; rfl
  have hsd : splitDot (a ++ '.' :: b) = [a, b] := by
    unfold splitDot
    exact splitOnP_append isDotChar a b '.'
      (fun c hc => digit_not_dot (had c hc)) (by decide)
      (fun c hc => digit_not_dot (hbd c hc))
  have hdb2 : digitRun b 2 = false := by
    unfold digitRun; rw [beq_eq_false_iff_ne.mpr hb2]; rfl
  have hdb4 : digitRun b 4 = false := by
    unfold digitRun; rw [beq_eq_false_iff_ne.mpr hb4]; rfl
  have g1 : (digitRun a 2 && digitRun b 2) = false := by rw [hdb2, Bool.and_false]
  have g2 : (digitRun a 2 && digitRun b 4) = false := by rw [hdb4, Bool.and_false]
  have g3 : (digitRun a 2 && digitRun14 b) = true := by rw [ha, hb]; rfl
  constructor
  · simp only [normalizeCipInput]
    rw [htl, hfil]
    simp only [hne, hdr2, hsd, g1, g2, g3, Bool.false_eq_true, if_false, if_true]
  · have hstrip : stripOuterBrackets (a ++ '.' :: b) = a ++ '.' :: b := by
      unfold stripOuterBrackets
      rw [dropWhile_eq_self_of_noP isOpenBracket _
          (hmemElim isOpenBracket (fun c hc => digit_not_openBracket hc) (by decide))]
      rw [dropWhile_eq_self_of_noP isCloseBracket _ (fun c hc =>
          hmemElim isCloseBracket (fun c hc => digit_not_closeBracket hc) (by decide) c
            (List.mem_reverse.mp hc))]
      exact List.reverse_reverse _
    have hany : (a ++ '.' :: b).any isDotChar = true := by
      simp [List.any_append, List.any_cons, isDotChar]
    have htla : trimList a = a :=
      trimList_of_noWs (fun c hc => digit_not_ws (had c hc))
    have htlb : trimList b = b :=
      trimList_of_noWs (fun c hc => digit_not_ws (hbd c hc))
    simp only [canonicalCip]
    rw [htl, hstrip]
    simp only [hne, hany, hsd, Bool.false_eq_true, if_false, if_true, Bool.not_true]
    simp only [htla, htlb, g1, g2, g3, Bool.false_eq_true, if_false, if_true]

/-- C6 counterexample: the code left-pads (`padStart`), so `"14.9"`
canonicalizes to `"14.0009"`, not to the claimed `"14.9000"`. -/
theorem c6_counterexample :
    normalizeCipInput "14.9" = "14.0009" ∧ canonicalCip "14.9" = "14.0009" ∧
      normalizeCipInput "14.9" ≠ "14.9000" :=
  ⟨by decide, by decide, by decide⟩

/-- C6 witness. -/
theorem c6_witness :
    normalizeCipInput "14.9" = "14.0009" ∧ canonicalCip "14.9" = "14.0009" := by
  have e : ("14.9" : String) = ⟨['1', '4'] ++ '.' :: ['9']⟩ := rfl
  obtain ⟨h1, h2⟩ := c6_padStart_left ['1', '4'] ['9']
    (by decide) (by decide) (by decide) (by decide)
  rw [e]
  exact ⟨h1.trans (by decide), h2.trans (by decide)⟩

/- ===== Claim C9 ===== -/

lemma zero_isDigit : ('0' : Char).isDigit = true := by decide

lemma len4_exists {l : List Char} (h : l.length = 4) :
    ∃ c1 c2 c3 c4, l = [c1, c2, c3, c4] := by
  rcases l with _ | ⟨c1, l⟩
  · simp at h
  rcases l with _ | ⟨c2, l⟩
  · simp at h
  rcases l with _ | ⟨c3, l⟩
  · simp at h
  rcases l with _ | ⟨c4, l⟩
  · simp at h
  rcases l with _ | ⟨c5, l⟩
  · exact ⟨c1, c2, c3, c4, rfl⟩
  · simp only [List.length_cons] at h
    omega

/-- C9: `normalizeCipInput` returns either the empty-string sentinel or a
string of the exact shape `NN.NNNN`; it never returns the input (or any other
shape) unchanged. -/
theorem c9_canonical_shape (s : String) :
    normalizeCipInput s = "" ∨ canonShape (normalizeCipInput s) = true := by
  simp only [normalizeCipInput]
  cases h0 : (trimList s.data).isEmpty
  · simp only [h0, Bool.false_eq_true, if_false]
    generalize hcl : List.filter (fun c => !isBracketChar c) (trimList s.data) = cleaned
    cases h2 : digitRun cleaned 2
    · simp only [h2, Bool.false_eq_true, if_false]
      rcases hsd : splitDot cleaned with _ | ⟨a, _ | ⟨b, _ | _⟩⟩
      · left; rfl
      · left; rfl
      · cases g1 : (digitRun a 2 && digitRun b 2)
        · simp only [g1, Bool.false_eq_true, if_false]
          cases g2 : (digitRun a 2 && digitRun b 4)
          · simp only [g2, Bool.false_eq_true, if_false]
            cases g3 : (digitRun a 2 && digitRun14 b)
            · left; simp only [g3, Bool.false_eq_true, if_false]
            · right
              simp only [g3, if_true]
              obtain ⟨ha, hb⟩ : digitRun a 2 = true ∧ digitRun14 b = true := by
                simpa using g3
              obtain ⟨ha2, had⟩ := digitRun_iff.mp ha
              obtain ⟨a1, a2, rfl⟩ := List.length_eq_two.mp ha2
              obtain ⟨hb1, hb4, hbd⟩ := digitRun14_iff.mp hb
              rcases b with _ | ⟨x1, b⟩
              · simp at hb1
              rcases b with _ | ⟨x2, b⟩
              · show canonShape ⟨[a1, a2, '.', '0', '0', '0', x1]⟩ = true
                simp [canonShape, had a1 (by simp), had a2 (by simp),
                  hbd x1 (by simp), zero_isDigit]
              rcases b with _ | ⟨x3, b⟩
              · show canonShape ⟨[a1, a2, '.', '0', '0', x1, x2]⟩ = true
                simp [canonShape, had a1 (by simp), had a2 (by simp),
                  hbd x1 (by simp), hbd x2 (by simp), zero_isDigit]
              rcases b with _ | ⟨x4, b⟩
              · show canonShape ⟨[a1, a2, '.', '0', x1, x2, x3]⟩ = true
                simp [canonShape, had a1 (by simp), had a2 (by simp),
                  hbd x1 (by simp), hbd x2 (by simp), hbd x3 (by simp), zero_isDigit]
              rcases b with _ | ⟨x5, b⟩
              · show canonShape ⟨[a1, a2, '.', x1, x2, x3, x4]⟩ = true
                simp [canonShape, had a1 (by simp), had a2 (by simp), hbd x1 (by simp),
                  hbd x2 (by simp), hbd x3 (by simp), hbd x4 (by simp)]
              · exfalso
                simp only [List.length_cons] at hb4
                omega
          · right
            simp only [g2, if_true]
            obtain ⟨ha, hb⟩ : digitRun a 2 = true ∧ digitRun b 4 = true := by
              simpa using g2
            obtain ⟨ha2, had⟩ := digitRun_iff.mp ha
            obtain ⟨hb4', hbd⟩ := digitRun_iff.mp hb
            obtain ⟨a1, a2, rfl⟩ := List.length_eq_two.mp ha2
            obtain ⟨b1, b2, b3, b4, rfl⟩ := len4_exists hb4'
            obtain ⟨⟨sep, hsep, rfl⟩, -, -⟩ :=
              splitOnP_eq_pair isDotChar cleaned _ _ hsd
            obtain rfl : sep = '.' := isDotChar_eq hsep
            show canonShape ⟨[a1, a2, '.', b1, b2, b3, b4]⟩ = true
            simp [canonShape, had a1 (by simp), had a2 (by simp), hbd b1 (by simp),
              hbd b2 (by simp), hbd b3 (by simp), hbd b4 (by simp)]
        · right
          simp only [g1, if_true]
          obtain ⟨ha, hb⟩ : digitRun a 2 = true ∧ digitRun b 2 = true := by
            simpa using g1
          obtain ⟨ha2, had⟩ := digitRun_iff.mp ha
          obtain ⟨hb2', hbd⟩ := digitRun_iff.mp hb
          obtain ⟨a1, a2, rfl⟩ := List.length_eq_two.mp ha2
          obtain ⟨b1, b2, rfl⟩ := List.length_eq_two.mp hb2'
          show canonShape ⟨[a1, a2, '.', b1, b2, '0', '0']⟩ = true
          simp [canonShape, had a1 (by simp), had a2 (by simp), hbd b1 (by simp),
            hbd b2 (by simp), zero_isDigit]
      · left; rfl
    · right
      simp only [h2, if_true]
      obtain ⟨hlen, hdig⟩ := digitRun_iff.mp h2
      obtain ⟨c1, c2, rfl⟩ := List.length_eq_two.mp hlen
      show canonShape ⟨[c1, c2, '.', '0', '0', '0', '0']⟩ = true
      simp [canonShape, hdig c1 (by simp), hdig c2 (by simp), zero_isDigit]
  · left
    simp only [h0, if_true]
